import Mathlib

/-!
# Task execution core of a YAML task runner, embedded shallowly

This file embeds the task execution engine of the runner (runner/task.go,
runner/context.go, appcli/command.go) and proves the behavioural properties
claimed by its specification.

External collaborators that the engine calls but that live outside the
verified sources (the source/target cache, the `when`-guard evaluator, the
process spawner, and the OS environment) are represented by a `World` of
oracles; the engine's own control flow is translated statement by statement.
Observable behaviour is an ordered trace of `Event`s (logger calls, process
spawns, environment mutations) together with an optional error, mirroring the
Go code's logger calls and `error` returns.
-/

namespace Tusk

/-- Errors are carried as their message strings, as in Go's `error` values. -/
abbrev Err := String

/-- One shell command inside a run item, from the runner's `Command` struct:
the text handed to the interpreter, the display form, and the command's own
quiet flag. Fields not consulted by the embedded functions (`dir`) are
omitted. -/
structure Cmd where
  exec : String
  print : String
  quiet : Bool
deriving DecidableEq, Repr

/-- A positional argument declaration. Only the name is consulted by the
embedded functions (`Task.isValid`, argument counting). -/
structure ArgDef where
  name : String
deriving DecidableEq, Repr

/-- An option declaration. Only the name is consulted by the embedded
functions (`Task.isValid`). -/
structure OptionDef where
  name : String
deriving DecidableEq, Repr

mutual
/-- The `Task` struct of runner/task.go: flags, argument and option
declarations, the `run` and `finally` lists, the `source`/`target` glob
lists, and the computed members `Name` and `Vars`. Usage strings are not
consulted by any embedded function and are omitted. -/
inductive Task where
  | mk (name : String) (quiet : Bool) (priv : Bool)
      (args : List ArgDef) (options : List OptionDef)
      (runList : List Run) (finList : List Run)
      (source : List String) (target : List String)
      (vars : List (String × String)) : Task

/-- The `Run` struct: a run item holding its command list, its sub-task list
(concrete `Task` copies, as in the Go field `Tasks []Task`), and its
`set-environment` mapping, carried as an association list whose order stands
for the map iteration order. The `when` guard is evaluated through the
`World` oracle, as the guard evaluator is an external collaborator. -/
inductive Run where
  | mk (cmds : List Cmd) (tasks : List Task)
      (setEnvironment : List (String × Option String)) : Run
end

def Task.name : Task → String
  | .mk n _ _ _ _ _ _ _ _ _ => n

def Task.quiet : Task → Bool
  | .mk _ q _ _ _ _ _ _ _ _ => q

def Task.priv : Task → Bool
  | .mk _ _ p _ _ _ _ _ _ _ => p

def Task.args : Task → List ArgDef
  | .mk _ _ _ a _ _ _ _ _ _ => a

def Task.options : Task → List OptionDef
  | .mk _ _ _ _ o _ _ _ _ _ => o

def Task.runList : Task → List Run
  | .mk _ _ _ _ _ r _ _ _ _ => r

def Task.finList : Task → List Run
  | .mk _ _ _ _ _ _ f _ _ _ => f

def Task.source : Task → List String
  | .mk _ _ _ _ _ _ _ s _ _ => s

def Task.target : Task → List String
  | .mk _ _ _ _ _ _ _ _ t _ => t

def Task.vars : Task → List (String × String)
  | .mk _ _ _ _ _ _ _ _ _ v => v

def Run.cmds : Run → List Cmd
  | .mk c _ _ => c

def Run.tasks : Run → List Task
  | .mk _ t _ => t

def Run.setEnvironment : Run → List (String × Option String)
  | .mk _ _ e => e

/-- The `executionState` of runner/task.go: whether a run item executes from
the `run` list or from the `finally` list. -/
inductive ExecState where
  | stateRunning
  | stateFinally
deriving DecidableEq, Repr

/-- Observable events, in execution order: each logger call of
runner/task.go, each spawned child process, and each applied environment
mutation. -/
inductive Event where
  | taskSkipped (name reason : String)
  | taskStarted (name : String)
  | taskFinallyStarted (name : String)
  | taskCompleted (name : String)
  | commandPrinted (printForm : String) (parenthetical : Option String)
      (taskNames : List String)
  | commandErrPrinted (e : Err)
  | environmentPrinted (env : List (String × Option String))
  | spawned (c : Cmd)
  | envSet (key value : String)
  | envUnset (key : String)
deriving DecidableEq, Repr

/-- Is the event a spawned child process? -/
def Event.isSpawn : Event → Bool
  | .spawned _ => true
  | _ => false

/-- Is the event an applied environment mutation? -/
def Event.isEnvMutation : Event → Bool
  | .envSet _ _ => true
  | .envUnset _ => true
  | _ => false

/-- Is the event the logger's finally header for some task? -/
def Event.isFinallyHeader : Event → Bool
  | .taskFinallyStarted _ => true
  | _ => false

/-- The `Context` struct of runner/context.go: config path, interpreter, and
the task stack. The logger is represented by the event trace itself. -/
structure Ctx where
  cfgPath : String
  interpreter : List String
  taskStack : List Task

/-- `Context.WithTask`: the returned context's stack is the old stack's
elements followed by the new task (the Go implementation reaches this value
through `append(slices.Clip(...), t)`; the aliasing consequences of that
implementation are modelled separately by the `Store`/`GoSlice` development
below). -/
def Ctx.withTask (c : Ctx) (t : Task) : Ctx :=
  { c with taskStack := c.taskStack ++ [t] }

/-- `Context.TaskNames`: names of the stacked tasks in order, private tasks
filtered out. -/
def Ctx.taskNames (c : Ctx) : List String :=
  (c.taskStack.filter fun t => !t.priv).map Task.name

/-- Oracles for the engine's external collaborators: the cache path
computation and up-to-date check and the cache writer (§4.G, outside the
verified sources), the `when`-guard evaluator `Run.shouldRun`, the process
spawner behind `Command.exec`, and the OS calls `os.Setenv`/`os.Unsetenv`.
Each returns the error the collaborator reports, `none` for success. -/
structure World where
  taskInputCachePath : Ctx → Task → Except Err String
  isUpToDate : Ctx → Task → String → Except Err Bool
  cacheWrite : Ctx → Task → String → Option Err
  shouldRun : Ctx → List (String × String) → Run → Bool × Option Err
  execRes : Ctx → Cmd → Option Err
  setenvRes : String → String → Option Err
  unsetenvRes : String → Option Err

/-- The outcome of a piece of execution: the events it emitted, in order,
and the error it returned. -/
abbrev Res := List Event × Option Err

/-- `shouldBeQuiet` of runner/task.go: the command's own quiet flag, or any
task on the stack with quiet set. -/
def shouldBeQuiet (c : Cmd) (ctx : Ctx) : Bool :=
  c.quiet || ctx.taskStack.any fun t => t.quiet

/-- The logger call `runCommands` makes for one command: with the
parenthetical "finally" in state `stateFinally`, plain otherwise. -/
def commandPrintEvent (s : ExecState) (ctx : Ctx) (c : Cmd) : Event :=
  match s with
  | .stateFinally => .commandPrinted c.print (some "finally") ctx.taskNames
  | .stateRunning => .commandPrinted c.print none ctx.taskNames

/-- The command loop of `Task.runCommands`: for each command, print unless
quiet, then execute; on a failing command, print the error and return it,
leaving the remaining commands unrun. -/
def runCommandsList (w : World) (ctx : Ctx) (s : ExecState) : List Cmd → Res
  | [] => ([], none)
  | c :: rest =>
    let header : List Event :=
      if shouldBeQuiet c ctx then [] else [commandPrintEvent s ctx c]
    match w.execRes ctx c with
    | some e => (header ++ [.spawned c, .commandErrPrinted e], some e)
    | none =>
      let tail := runCommandsList w ctx s rest
      (header ++ .spawned c :: tail.1, tail.2)

/-- `Task.runCommands`: run the commands of one run item. -/
def Task.runCommands (w : World) (ctx : Ctx) (_t : Task) (r : Run)
    (s : ExecState) : Res :=
  runCommandsList w ctx s r.cmds

/-- The mutation loop of `Task.runEnvironment`: a `none` value unsets the
variable, a string value sets it; a failing OS call aborts the loop with its
error. -/
def runEnvList (w : World) : List (String × Option String) → Res
  | [] => ([], none)
  | (key, none) :: rest =>
    match w.unsetenvRes key with
    | some e => ([], some e)
    | none =>
      let tail := runEnvList w rest
      (.envUnset key :: tail.1, tail.2)
  | (key, some v) :: rest =>
    match w.setenvRes key v with
    | some e => ([], some e)
    | none =>
      let tail := runEnvList w rest
      (.envSet key v :: tail.1, tail.2)

/-- `Task.runEnvironment`: print the mapping, then apply each mutation. -/
def runEnvironment (w : World) (_ctx : Ctx) (r : Run) : Res :=
  let tail := runEnvList w r.setEnvironment
  (.environmentPrinted r.setEnvironment :: tail.1, tail.2)

/-- Sequencing of two already-computed outcomes: if the first erred, the
second contributes nothing; otherwise the events concatenate and the second
decides the error. -/
def resSeq (a b : Res) : Res :=
  match a.2 with
  | some e => (a.1, some e)
  | none => (a.1 ++ b.1, b.2)

/-- The `runFuncs` loop of `Task.run`: try each sub-step in order, stopping
at the first error. -/
def seqAll : List Res → Res
  | [] => ([], none)
  | a :: rest => resSeq a (seqAll rest)

theorem Task.sizeOf_runList_lt (t : Task) : sizeOf t.runList < sizeOf t := by
  cases t with
  | mk n q p a o rl fl s tg v => simp [Task.runList]; omega

theorem Task.sizeOf_finList_lt (t : Task) : sizeOf t.finList < sizeOf t := by
  cases t with
  | mk n q p a o rl fl s tg v => simp [Task.finList]; omega

theorem Run.sizeOf_tasks_lt (r : Run) : sizeOf r.tasks < sizeOf r := by
  cases r with
  | mk c t e => simp [Run.tasks]; omega

mutual
/-- `Task.Execute` of runner/task.go: push the task onto the context stack,
compute the cache path, return success immediately when up to date, and
otherwise log the task, run the run list, write the cache marker, and
finally (deferred, before the completion log) run the `finally` list, which
may replace a nil error. -/
def Task.execute (w : World) (ctx : Ctx) (t : Task) : Res :=
  let ctx' := ctx.withTask t
  match w.taskInputCachePath ctx' t with
  | .error e => ([], some e)
  | .ok cachePath =>
    match w.isUpToDate ctx' t cachePath with
    | .error e => ([], some ("checking cache: " ++ e))
    | .ok true => ([.taskSkipped t.name "all targets up to date"], none)
    | .ok false =>
      let body : Res :=
        match runSeq w ctx' t .stateRunning t.runList with
        | (evs, some e) => (evs, some e)
        | (evs, none) =>
          match w.cacheWrite ctx' t cachePath with
          | some e => (evs, some ("caching task: " ++ e))
          | none => (evs, none)
      let fin := Task.runFinally w ctx' t body.2
      (.taskStarted t.name :: (body.1 ++ fin.1 ++ [.taskCompleted t.name]), fin.2)
termination_by 2 * sizeOf t
decreasing_by
  all_goals simp_wf
  · have h := Task.sizeOf_runList_lt t; omega
  · have h := Task.sizeOf_finList_lt t; omega

/-- The run-list loop in `Task.Execute`: run items in order; the first error
aborts the loop and is returned. -/
def runSeq (w : World) (ctx : Ctx) (t : Task) (s : ExecState)
    (rs : List Run) : Res :=
  match rs with
  | [] => ([], none)
  | r :: rest =>
    let res := Task.run w ctx t r s
    match res.2 with
    | some e => (res.1, some e)
    | none =>
      let tail := runSeq w ctx t s rest
      (res.1 ++ tail.1, tail.2)
termination_by 2 * sizeOf rs + 1
decreasing_by
  all_goals simp_wf
  all_goals omega

/-- `Task.run`: gate the item on its `when` guard, then dispatch the three
sub-steps in order — commands, sub-tasks, environment mutations — stopping
at the first error. -/
def Task.run (w : World) (ctx : Ctx) (t : Task) (r : Run) (s : ExecState) :
    Res :=
  let guard := w.shouldRun ctx t.vars r
  if !guard.1 || guard.2.isSome then ([], guard.2)
  else
    seqAll [Task.runCommands w ctx t r s, Task.runSubTasks w ctx t r,
      runEnvironment w ctx r]
termination_by 2 * sizeOf r + 1
decreasing_by
  all_goals simp_wf

/-- `Task.runSubTasks`: execute each sub-task of the run item in order; the
first error aborts. -/
def Task.runSubTasks (w : World) (ctx : Ctx) (_t : Task) (r : Run) : Res :=
  runTasksList w ctx r.tasks
termination_by 2 * sizeOf r
decreasing_by
  all_goals simp_wf
  have h := Run.sizeOf_tasks_lt r; omega

/-- The sub-task loop of `Task.runSubTasks`. -/
def runTasksList (w : World) (ctx : Ctx) (ts : List Task) : Res :=
  match ts with
  | [] => ([], none)
  | t' :: rest =>
    let res := Task.execute w ctx t'
    match res.2 with
    | some e => (res.1, some e)
    | none =>
      let tail := runTasksList w ctx rest
      (res.1 ++ tail.1, tail.2)
termination_by 2 * sizeOf ts + 1
decreasing_by
  all_goals simp_wf
  all_goals omega

/-- `Task.runFinally`: with a non-empty `finally` list, log the finally
header and run the loop; the caller's error pointer is threaded through and
returned possibly updated. -/
def Task.runFinally (w : World) (ctx : Ctx) (t : Task) (er : Option Err) :
    Res :=
  if t.finList.isEmpty then ([], er)
  else
    let res := runFinallyLoop w ctx t er t.finList
    (.taskFinallyStarted t.name :: res.1, res.2)
termination_by 2 * sizeOf t.finList + 1
decreasing_by
  all_goals simp_wf

/-- The finally loop: run each finally item; an item's error is written to
the threaded error only when that is still nil, and in either case stops the
loop. -/
def runFinallyLoop (w : World) (ctx : Ctx) (t : Task) (er : Option Err)
    (rs : List Run) : Res :=
  match rs with
  | [] => ([], er)
  | r :: rest =>
    let res := Task.run w ctx t r .stateFinally
    match res.2 with
    | some rerr => (res.1, if er = none then some rerr else er)
    | none =>
      let tail := runFinallyLoop w ctx t er rest
      (res.1 ++ tail.1, tail.2)
termination_by 2 * sizeOf rs
decreasing_by
  all_goals simp_wf
  all_goals omega
end

theorem resSeq_empty (a : Res) : resSeq a ([], none) = a := by
  cases a with
  | mk evs er => cases er <;> simp [resSeq]

theorem runFinallyLoop_keeps_error (w : World) (ctx : Ctx) (t : Task)
    (e : Err) (rs : List Run) :
    (runFinallyLoop w ctx t (some e) rs).2 = some e := by
  induction rs with
  | nil => simp [runFinallyLoop]
  | cons r rest ih =>
    rw [runFinallyLoop]
    cases h : (Task.run w ctx t r .stateFinally).2 with
    | some rerr => simp [h]
    | none => simp [h, ih]

/-- C3: an error produced by a finally item becomes the task's error only if
the run list produced no error. `Task.runFinally` threads the caller's error
through: when a run item already failed with `e`, the returned error is that
same `e` whatever the finally items do, and only with a nil incoming error is
the outcome what the finally list itself produces. -/
theorem finallyError_only_without_runError (w : World) (ctx : Ctx) (t : Task)
    (er : Option Err) :
    (Task.runFinally w ctx t er).2 =
      match er with
      | some e => some e
      | none => (Task.runFinally w ctx t none).2 := by
  cases er with
  | none => rfl
  | some e =>
    rw [Task.runFinally]
    split
    · rfl
    · simpa using runFinallyLoop_keeps_error w ctx t e t.finList

theorem runFinallyLoop_stops_at_error (w : World) (ctx : Ctx) (t : Task)
    (er0 : Option Err) (pre post : List Run) (r : Run) (e : Err)
    (hpre : ∀ x ∈ pre, (Task.run w ctx t x .stateFinally).2 = none)
    (hr : (Task.run w ctx t r .stateFinally).2 = some e) :
    (runFinallyLoop w ctx t er0 (pre ++ r :: post)).1 =
      (pre.map fun x => (Task.run w ctx t x .stateFinally).1).flatten
        ++ (Task.run w ctx t r .stateFinally).1 := by
  induction pre with
  | nil => simp [runFinallyLoop, hr]
  | cons p pre ih =>
    have hp := hpre p (by simp)
    have hrest : ∀ x ∈ pre, (Task.run w ctx t x .stateFinally).2 = none :=
      fun x hx => hpre x (by simp [hx])
    rw [List.cons_append, runFinallyLoop]
    simp [hp, ih hrest]

/-- C10: the first failing finally item stops the finally loop. Whatever
error is already threaded in (`er0`, including the case where the item's own
error is discarded because a run error exists), the emitted events are the
finally header, the events of the succeeding prefix, and the events of the
first failing item — nothing from the items after it. -/
theorem finally_stops_after_first_error (w : World) (ctx : Ctx) (t : Task)
    (er0 : Option Err) (pre post : List Run) (r : Run) (e : Err)
    (hfin : t.finList = pre ++ r :: post)
    (hpre : ∀ x ∈ pre, (Task.run w ctx t x .stateFinally).2 = none)
    (hr : (Task.run w ctx t r .stateFinally).2 = some e) :
    (Task.runFinally w ctx t er0).1 =
      .taskFinallyStarted t.name ::
        ((pre.map fun x => (Task.run w ctx t x .stateFinally).1).flatten
          ++ (Task.run w ctx t r .stateFinally).1) := by
  rw [Task.runFinally, hfin]
  have hne : ((pre ++ r :: post).isEmpty) = false := by
    cases pre <;> simp
  rw [hne]
  simp [runFinallyLoop_stops_at_error w ctx t er0 pre post r e hpre hr]

/-- C4: when its `when` guard passes, a run item dispatches commands, then
sub-tasks, then environment mutations, in that fixed order, and the first
failing sub-step aborts the item with that error, leaving the later
sub-steps unrun (their events are absent from the trace). -/
theorem runItem_dispatch_order (w : World) (ctx : Ctx) (t : Task) (r : Run)
    (s : ExecState) (hwhen : w.shouldRun ctx t.vars r = (true, none)) :
    Task.run w ctx t r s =
      resSeq (Task.runCommands w ctx t r s)
        (resSeq (Task.runSubTasks w ctx t r) (runEnvironment w ctx r)) ∧
    (∀ e, (Task.runCommands w ctx t r s).2 = some e →
      Task.run w ctx t r s = ((Task.runCommands w ctx t r s).1, some e)) ∧
    (∀ e, (Task.runCommands w ctx t r s).2 = none →
      (Task.runSubTasks w ctx t r).2 = some e →
      Task.run w ctx t r s =
        ((Task.runCommands w ctx t r s).1 ++ (Task.runSubTasks w ctx t r).1,
          some e)) ∧
    ((Task.runCommands w ctx t r s).2 = none →
      (Task.runSubTasks w ctx t r).2 = none →
      Task.run w ctx t r s =
        ((Task.runCommands w ctx t r s).1 ++ (Task.runSubTasks w ctx t r).1
            ++ (runEnvironment w ctx r).1,
          (runEnvironment w ctx r).2)) := by
  have hrun : Task.run w ctx t r s =
      resSeq (Task.runCommands w ctx t r s)
        (resSeq (Task.runSubTasks w ctx t r) (runEnvironment w ctx r)) := by
    rw [Task.run]
    simp [hwhen, seqAll, resSeq_empty]
  refine ⟨hrun, ?_, ?_, ?_⟩
  · intro e hc
    rw [hrun]
    simp [resSeq, hc]
  · intro e hc hs
    rw [hrun]
    simp [resSeq, hc, hs]
  · intro hc hs
    rw [hrun]
    simp [resSeq, hc, hs, List.append_assoc]

/-- C7: in the command loop, a command's print form is emitted exactly when
neither its own quiet flag nor any stacked task's quiet flag is set, and the
command is spawned either way: the trace of a non-empty command list starts
with the optional print event followed by the spawn of the head command. -/
theorem quiet_inheritance_print (w : World) (ctx : Ctx) (s : ExecState)
    (c : Cmd) (rest : List Cmd) :
    (∃ tailEvs tailErr,
      runCommandsList w ctx s (c :: rest) =
        ((if c.quiet = true ∨ ∃ tk ∈ ctx.taskStack, tk.quiet = true then
            ([] : List Event)
          else [commandPrintEvent s ctx c]) ++ .spawned c :: tailEvs,
          tailErr)) ∧
    .spawned c ∈ (runCommandsList w ctx s (c :: rest)).1 := by
  have hq : shouldBeQuiet c ctx = true ↔
      (c.quiet = true ∨ ∃ tk ∈ ctx.taskStack, tk.quiet = true) := by
    simp [shouldBeQuiet, List.any_eq_true]
  have hmain : ∃ tailEvs tailErr,
      runCommandsList w ctx s (c :: rest) =
        ((if c.quiet = true ∨ ∃ tk ∈ ctx.taskStack, tk.quiet = true then
            ([] : List Event)
          else [commandPrintEvent s ctx c]) ++ .spawned c :: tailEvs,
          tailErr) := by
    by_cases hsb : shouldBeQuiet c ctx = true
    · rw [if_pos (hq.mp hsb)]
      cases hex : w.execRes ctx c with
      | some e =>
        exact ⟨[.commandErrPrinted e], some e, by
          simp [runCommandsList, hex, hsb]⟩
      | none =>
        exact ⟨(runCommandsList w ctx s rest).1,
          (runCommandsList w ctx s rest).2, by
          simp [runCommandsList, hex, hsb]⟩
    · rw [if_neg (fun hquiet => hsb (hq.mpr hquiet))]
      cases hex : w.execRes ctx c with
      | some e =>
        exact ⟨[.commandErrPrinted e], some e, by
          simp [runCommandsList, hex, hsb]⟩
      | none =>
        exact ⟨(runCommandsList w ctx s rest).1,
          (runCommandsList w ctx s rest).2, by
          simp [runCommandsList, hex, hsb]⟩
  refine ⟨hmain, ?_⟩
  obtain ⟨tailEvs, tailErr, heq⟩ := hmain
  rw [heq]
  simp

/-- The option/argument name-clash scan of `Task.isValid`: walk the options
in order and report the first option whose name an argument shares. -/
def findClash : List OptionDef → List ArgDef → Option String
  | [], _ => none
  | o :: rest, args =>
    if args.any fun a => a.name = o.name then some o.name
    else findClash rest args

/-- `Task.isValid` of runner/task.go: `source` without `target` and `target`
without `source` are rejected, then argument/option names must be disjoint. -/
def Task.isValid (t : Task) : Except Err Unit :=
  if 0 < t.source.length ∧ t.target.length = 0 then
    .error "task source cannot be defined without target"
  else if 0 < t.target.length ∧ t.source.length = 0 then
    .error "task target cannot be defined without source"
  else
    match findClash t.options t.args with
    | some n =>
      .error ("argument and option \"" ++ n
        ++ "\" must have unique names within a task")
    | none => .ok ()

/-- C6: validation fails when `source` is non-empty and `target` empty, and
when `target` is non-empty and `source` empty; a task can pass validation
only when `source` and `target` are both empty or both non-empty. -/
theorem sourceTarget_validation (t : Task) :
    (t.source ≠ [] → t.target = [] →
      Task.isValid t = .error "task source cannot be defined without target") ∧
    (t.target ≠ [] → t.source = [] →
      Task.isValid t = .error "task target cannot be defined without source") ∧
    (Task.isValid t = .ok () →
      (t.source = [] ∧ t.target = []) ∨ (t.source ≠ [] ∧ t.target ≠ [])) := by
  refine ⟨?_, ?_, ?_⟩
  · intro hs ht
    have hlen : 0 < t.source.length := List.length_pos.mpr hs
    simp [Task.isValid, hlen, ht]
  · intro ht hs
    have hlen : 0 < t.target.length := List.length_pos.mpr ht
    simp [Task.isValid, hlen, hs]
  · intro hok
    by_cases hs : t.source = []
    · by_cases ht : t.target = []
      · exact Or.inl ⟨hs, ht⟩
      · have hlen : 0 < t.target.length := List.length_pos.mpr ht
        simp [Task.isValid, hlen, hs] at hok
    · by_cases ht : t.target = []
      · have hlen : 0 < t.source.length := List.length_pos.mpr hs
        simp [Task.isValid, hlen, ht] at hok
      · exact Or.inr ⟨hs, ht⟩

/-- The action `createExecuteCommand` of appcli/command.go installs for a
task: reject the invocation when the positional argument count differs from
the task's declared count, otherwise execute the task on a fresh zero-value
run context. -/
def createExecuteAction (w : World) (t : Task) (passed : List String) : Res :=
  if t.args.length ≠ passed.length then
    ([], some ("task \"" ++ t.name ++ "\" requires exactly "
      ++ toString t.args.length ++ " args, got " ++ toString passed.length))
  else
    Task.execute w { cfgPath := "", interpreter := [], taskStack := [] } t

/-- C8: a direct CLI invocation fails with an error naming the task and the
expected count whenever the positional argument count differs from the
declared count — without executing anything — and the task body runs exactly
when the counts are equal. -/
theorem argCount_exact_match (w : World) (t : Task) (passed : List String) :
    (t.args.length ≠ passed.length →
      createExecuteAction w t passed =
        ([], some ("task \"" ++ t.name ++ "\" requires exactly "
          ++ toString t.args.length ++ " args, got "
          ++ toString passed.length))) ∧
    (t.args.length = passed.length →
      createExecuteAction w t passed =
        Task.execute w { cfgPath := "", interpreter := [], taskStack := [] }
          t) := by
  constructor
  · intro h
    simp [createExecuteAction, h]
  · intro h
    simp [createExecuteAction, h]

/-- C1: when the task's cache reports up to date, `Task.Execute` logs the
skip and returns success with nothing else in the trace: no run item ran, no
finally item ran (no finally header), no child process was spawned, and no
environment mutation was applied. -/
theorem cacheSkip_executes_nothing (w : World) (ctx : Ctx) (t : Task)
    (p : String) (_hsrc : t.source ≠ []) (_htgt : t.target ≠ [])
    (hpath : w.taskInputCachePath (ctx.withTask t) t = .ok p)
    (hupd : w.isUpToDate (ctx.withTask t) t p = .ok true) :
    Task.execute w ctx t =
      ([.taskSkipped t.name "all targets up to date"], none) ∧
    (Task.execute w ctx t).1.filter Event.isSpawn = [] ∧
    (Task.execute w ctx t).1.filter Event.isEnvMutation = [] ∧
    (Task.execute w ctx t).1.filter Event.isFinallyHeader = [] := by
  have hmain : Task.execute w ctx t =
      ([.taskSkipped t.name "all targets up to date"], none) := by
    rw [Task.execute]
    simp [hpath, hupd]
  refine ⟨hmain, ?_, ?_, ?_⟩ <;> rw [hmain] <;>
    simp [Event.isSpawn, Event.isEnvMutation, Event.isFinallyHeader]

/-! ## Go slices, for the aliasing contract of `Context.WithTask`

`Context.WithTask` is implemented as `append(slices.Clip(c.taskStack), t)`.
To state its aliasing behaviour the Go memory is made explicit: a `Store` of
backing arrays, and a `GoSlice` as (array id, offset, length, capacity).
`append` writes in place when spare capacity exists and otherwise copies
into a fresh array; `slices.Clip` sets the capacity to the length, which
forces the copy. -/

/-- The heap of slice backing arrays; an array is addressed by its index. -/
structure Store (α : Type) where
  arrays : List (List α)

/-- The backing array with the given id (missing ids read as empty). -/
def Store.getArr {α : Type} (st : Store α) (i : Nat) : List α :=
  st.arrays.getD i []

/-- A Go slice value: backing array id, offset, length, capacity. -/
structure GoSlice where
  arrId : Nat
  off : Nat
  len : Nat
  cap : Nat
deriving DecidableEq, Repr

/-- The elements a slice views. -/
def sliceView {α : Type} (st : Store α) (s : GoSlice) : List α :=
  ((st.getArr s.arrId).drop s.off).take s.len

/-- `slices.Clip`: capacity reduced to length; id, offset, elements
unchanged. -/
def sliceClip (s : GoSlice) : GoSlice :=
  { s with cap := s.len }

/-- Overwrite one cell of one backing array. -/
def writeCell {α : Type} (st : Store α) (i pos : Nat) (x : α) : Store α :=
  ⟨st.arrays.set i ((st.getArr i).set pos x)⟩

/-- `append(s, x)` for a slice: with spare capacity, write into the shared
backing array in place; otherwise allocate a fresh array holding the copied
elements and the new one. -/
def sliceAppend {α : Type} (st : Store α) (s : GoSlice) (x : α) :
    Store α × GoSlice :=
  if s.len < s.cap then
    (writeCell st s.arrId (s.off + s.len) x, { s with len := s.len + 1 })
  else
    (⟨st.arrays ++ [sliceView st s ++ [x]]⟩,
      ⟨st.arrays.length, 0, s.len + 1, s.len + 1⟩)

/-- Iterated `append`, for talking about later growth of a stack. -/
def sliceAppendMany {α : Type} (st : Store α) (s : GoSlice) :
    List α → Store α × GoSlice
  | [] => (st, s)
  | x :: xs =>
    let p := sliceAppend st s x
    sliceAppendMany p.1 p.2 xs

/-- A slice is well formed in a store when its id is allocated and its
offset/capacity window fits the backing array. -/
def GoSlice.wf {α : Type} (s : GoSlice) (st : Store α) : Prop :=
  s.arrId < st.arrays.length ∧ s.len ≤ s.cap ∧
    s.off + s.cap ≤ (st.getArr s.arrId).length

/-- `Context.WithTask`'s stack computation, at the slice level:
`append(slices.Clip(stack), t)`. -/
def withTaskSlice (st : Store Task) (s : GoSlice) (t : Task) :
    Store Task × GoSlice :=
  sliceAppend st (sliceClip s) t

theorem getE_append_lt {α : Type} (l l' : List α) :
    ∀ i, i < l.length → (l ++ l')[i]? = l[i]? := by
  induction l with
  | nil => intro i h; simp at h
  | cons a l ih =>
    intro i h
    cases i with
    | zero => simp
    | succ i => simpa using ih i (by simpa using h)

theorem getE_append_length {α : Type} (l : List α) (a : α) :
    (l ++ [a])[l.length]? = some a := by
  induction l with
  | nil => rfl
  | cons b l ih => simp [ih]

theorem getE_set_ne {α : Type} (l : List α) (x : α) :
    ∀ i j, i ≠ j → (l.set i x)[j]? = l[j]? := by
  induction l with
  | nil => intro i j _; simp
  | cons a l ih =>
    intro i j hne
    cases i with
    | zero =>
      cases j with
      | zero => exact absurd rfl hne
      | succ j => simp
    | succ i =>
      cases j with
      | zero => simp
      | succ j => simpa using ih i j (fun h => hne (by rw [h]))

/-- Clipping forces `append` to reallocate: the result of `WithTask`'s stack
computation is a fresh array holding the copied elements plus the new task. -/
theorem withTaskSlice_eq (st : Store Task) (s : GoSlice) (t : Task) :
    withTaskSlice st s t =
      (⟨st.arrays ++ [sliceView st s ++ [t]]⟩,
        ⟨st.arrays.length, 0, s.len + 1, s.len + 1⟩) := by
  simp [withTaskSlice, sliceAppend, sliceClip, sliceView, Store.getArr]

theorem sliceView_length {α : Type} (st : Store α) (s : GoSlice)
    (hwf : s.wf st) : (sliceView st s).length = s.len := by
  obtain ⟨-, hlen, hcap⟩ := hwf
  simp [sliceView]
  omega

/-- A store extended with a fresh array shows every allocated slice the same
elements as before. -/
theorem sliceView_append_array {α : Type} (st : Store α) (s : GoSlice)
    (b : List α) (hlt : s.arrId < st.arrays.length) :
    sliceView (⟨st.arrays ++ [b]⟩ : Store α) s = sliceView st s := by
  simp [sliceView, Store.getArr, getE_append_lt st.arrays [b] s.arrId hlt]

/-- An in-place write into a different array leaves a slice's view
unchanged. -/
theorem sliceView_writeCell_ne {α : Type} (st : Store α) (s : GoSlice)
    (i pos : Nat) (x : α) (hne : i ≠ s.arrId) :
    sliceView (writeCell st i pos x) s = sliceView st s := by
  simp only [sliceView, writeCell, Store.getArr, List.getD_eq_getElem?_getD]
  rw [getE_set_ne st.arrays _ i s.arrId hne]

/-- A freshly appended backing array is what a slice rooted at it views. -/
theorem sliceView_fresh {α : Type} (st : Store α) (b : List α) (n c : Nat) :
    sliceView (⟨st.arrays ++ [b]⟩ : Store α) ⟨st.arrays.length, 0, n, c⟩ =
      b.take n := by
  simp only [sliceView, Store.getArr, List.getD_eq_getElem?_getD]
  rw [getE_append_length]
  simp

/-- Growth of a slice never changes the view of a slice backed by a
different allocated array: in-place writes hit only the growing slice's own
array, and reallocations only add fresh arrays. -/
theorem sliceAppendMany_preserves {α : Type} (xs : List α) :
    ∀ (st : Store α) (sl s0 : GoSlice), sl.arrId ≠ s0.arrId →
      s0.arrId < st.arrays.length →
      sliceView (sliceAppendMany st sl xs).1 s0 = sliceView st s0 := by
  induction xs with
  | nil =>
    intro st sl s0 _ _
    rfl
  | cons x xs ih =>
    intro st sl s0 hne hlt
    rw [sliceAppendMany]
    by_cases hc : sl.len < sl.cap
    · have hstep : sliceAppend st sl x =
          (writeCell st sl.arrId (sl.off + sl.len) x,
            { sl with len := sl.len + 1 }) := by
        simp [sliceAppend, hc]
      rw [hstep]
      have hlt' : s0.arrId < (writeCell st sl.arrId (sl.off + sl.len)
          x).arrays.length := by
        simpa [writeCell] using hlt
      rw [ih (writeCell st sl.arrId (sl.off + sl.len) x)
        { sl with len := sl.len + 1 } s0 hne hlt']
      exact sliceView_writeCell_ne st s0 sl.arrId (sl.off + sl.len) x hne
    · have hstep : sliceAppend st sl x =
          (⟨st.arrays ++ [sliceView st sl ++ [x]]⟩,
            ⟨st.arrays.length, 0, sl.len + 1, sl.len + 1⟩) := by
        simp [sliceAppend, hc]
      rw [hstep]
      have hne' : (⟨st.arrays.length, 0, sl.len + 1, sl.len + 1⟩ :
          GoSlice).arrId ≠ s0.arrId := Nat.ne_of_gt hlt
      have hlt' : s0.arrId <
          (⟨st.arrays ++ [sliceView st sl ++ [x]]⟩ : Store α).arrays.length := by
        simp
        omega
      rw [ih (⟨st.arrays ++ [sliceView st sl ++ [x]]⟩ : Store α)
        ⟨st.arrays.length, 0, sl.len + 1, sl.len + 1⟩ s0 hne' hlt']
      exact sliceView_append_array st s0 (sliceView st sl ++ [x]) hlt

/-- C9: `WithTask`'s clipped-then-extended `append` yields a stack whose
elements are the original elements followed by the new task, leaves the
original stack's view unchanged, places the new stack in a fresh backing
array distinct from the original's, and later growth of the new stack never
changes what the original stack views. -/
theorem withTask_no_alias (st : Store Task) (s : GoSlice) (t : Task)
    (xs : List Task) (hwf : s.wf st) :
    sliceView (withTaskSlice st s t).1 (withTaskSlice st s t).2 =
      sliceView st s ++ [t] ∧
    sliceView (withTaskSlice st s t).1 s = sliceView st s ∧
    (withTaskSlice st s t).2.arrId ≠ s.arrId ∧
    sliceView
      (sliceAppendMany (withTaskSlice st s t).1 (withTaskSlice st s t).2 xs).1
      s = sliceView st s := by
  have hlt := hwf.1
  have hlen := sliceView_length st s hwf
  rw [withTaskSlice_eq]
  refine ⟨?_, ?_, ?_, ?_⟩
  · rw [sliceView_fresh]
    exact List.take_of_length_le (by simp [hlen])
  · exact sliceView_append_array st s (sliceView st s ++ [t]) hlt
  · exact Nat.ne_of_gt hlt
  · have hne' : (⟨st.arrays.length, 0, s.len + 1, s.len + 1⟩ :
        GoSlice).arrId ≠ s.arrId := Nat.ne_of_gt hlt
    have hlt' : s.arrId <
        (⟨st.arrays ++ [sliceView st s ++ [t]]⟩ : Store Task).arrays.length := by
      simp
      omega
    rw [sliceAppendMany_preserves xs
      (⟨st.arrays ++ [sliceView st s ++ [t]]⟩ : Store Task)
      ⟨st.arrays.length, 0, s.len + 1, s.len + 1⟩ s hne' hlt']
    exact sliceView_append_array st s (sliceView st s ++ [t]) hlt

/-! ## The task decoder: `Task.UnmarshalYAML` and the `include` indirection

`Task.UnmarshalYAML` tries two candidates through `marshal.UnmarshalOneOf`
(an external collaborator, modelled from the spec's polymorphic-decoder
contract, §4.A: candidates are tried in order, a type-mismatch moves to the
next candidate, any other error aborts): first the `include` shape, then the
inline task shape. The include candidate opens the referenced file and
decodes it into a `Task` value with a strict YAML decoder; decoding into a
`Task` invokes `Task.UnmarshalYAML` on the included document, which is why
the decoder recurses below. A YAML document that can hold a task is either
an `include` mapping (with a count of the other keys present, which the
include candidate must reject) or an inline task definition. -/
inductive TaskNode where
  | includeNode (path : String) (extraFields : Nat)
  | inlineNode (t : Task)

/-- `Task.UnmarshalYAML` over a file system `fs` mapping paths to parsed
documents. On an include node: other fields are forbidden, the file must
open, and its document is decoded as a full `Task` (the recursive call),
wrapping any error; the fuel bounds the include chain, and exhausting it is
the model's marker for the unbounded recursion a mutually-including pair of
files produces in the Go code. On an inline node the include candidate
reports a type mismatch, so the task candidate decodes it, gated by
`Task.isValid`. -/
def decodeTaskNode (fs : String → Option TaskNode) :
    Nat → TaskNode → Except Err Task
  | fuel, .includeNode path extra =>
    if extra ≠ 0 then
      .error "tasks using \"include\" may not specify other fields"
    else
      match fs path with
      | none => .error ("opening included file: " ++ path)
      | some inner =>
        match fuel with
        | 0 => .error "include chain does not terminate"
        | fuel + 1 =>
          match decodeTaskNode fs fuel inner with
          | .error e =>
            .error ("decoding included file \"" ++ path ++ "\": " ++ e)
          | .ok t => .ok t
  | _, .inlineNode t =>
    match Task.isValid t with
    | .error e => .error e
    | .ok _ => .ok t

/-- A small valid inline task used to exercise the decoder. -/
def tInline : Task :=
  .mk "included" false false [] [] [] [] [] [] []

/-- File system in which "f1" is a file containing only `include: f2` and
"f2" holds a full inline definition. -/
def fsChain : String → Option TaskNode := fun p =>
  if p = "f1" then some (.includeNode "f2" 0)
  else if p = "f2" then some (.inlineNode tInline)
  else none

/-- The same file system with "f2" removed. -/
def fsChainBroken : String → Option TaskNode := fun p =>
  if p = "f1" then some (.includeNode "f2" 0)
  else none

/-- C5 counterexample: the decoder follows an `include` key found inside an
included file. Decoding a task `include: f1` where the file "f1" itself
contains only `include: f2` consults "f2": with "f2" present the decode
succeeds with "f2"'s definition, and with "f2" absent it fails reporting the
nested open. Were a once-included file treated as a full inline definition
whose `include` key is not followed again, the two outcomes could not
differ in this way (and neither would produce "f2"'s task). -/
theorem includeOnceOnly_refuted :
    decodeTaskNode fsChain 2 (.includeNode "f1" 0) = .ok tInline ∧
    decodeTaskNode fsChainBroken 2 (.includeNode "f1" 0) =
      .error "decoding included file \"f1\": opening included file: f2" := by
  constructor <;> rfl

/-- C5 amended: decoding a task whose `include` field is present substitutes
the referenced file's definition, and the indirection recurses: the included
file is decoded as a full `Task`, so an `include` key inside an included
file is followed again by the decoder (given fuel for the extra hop). -/
theorem include_follows_nested_include (fs : String → Option TaskNode)
    (p1 p2 : String) (t : Task) (fuel : Nat)
    (h1 : fs p1 = some (.includeNode p2 0))
    (h2 : fs p2 = some (.inlineNode t))
    (hv : Task.isValid t = .ok ()) :
    decodeTaskNode fs (fuel + 2) (.includeNode p1 0) = .ok t := by
  rw [decodeTaskNode]
  simp only [h1, if_neg (by simp : ¬ (0 ≠ 0))]
  rw [decodeTaskNode]
  simp only [h2, if_neg (by simp : ¬ (0 ≠ 0))]
  rw [decodeTaskNode]
  rw [hv]

/-! ## Sub-task cycle detection

`Task.runSubTasks` in the verified sources executes the already-resolved
`Run.Tasks` copies and contains no cycle check; the resolution of sub-task
references by name, with its cycle detection, lives outside the verified
sources. It is modelled here from the spec: a catalogue maps task names to
their definitions; §4.E resolves each sub-task reference through the
catalogue and fails with a cycle error "if the referenced task name already
appears in the stack"; §4.F pushes the executing task onto the stack first.
Only the sub-task reference structure bears on cycle detection, so run items
carry just their reference lists here. -/

/-- Modelled from the spec: a run item's ordered sub-task references (§3
`SubTaskRef`; per-call args/options do not bear on cycle detection). -/
structure RunN where
  tasks : List String
deriving DecidableEq, Repr

/-- Modelled from the spec: a task as the cycle-detection model sees it —
its name and the run items holding its sub-task references. -/
structure TaskN where
  name : String
  runList : List RunN
deriving DecidableEq, Repr

/-- The task catalogue of the configuration, as name/definition pairs. -/
abbrev Catalogue := List (String × TaskN)

/-- First catalogue entry with the given name. -/
def lookupTask : Catalogue → String → Option TaskN
  | [], _ => none
  | (m, tk) :: rest, n => if m = n then some tk else lookupTask rest n

/-- The ways the modelled executor can fail: fuel exhaustion (the model's
stand-in for a nonterminating execution), a detected reference cycle, and a
reference to a name absent from the catalogue. -/
inductive ExecErrN where
  | outOfFuel
  | cycle (n : String)
  | unknownTask (n : String)
deriving DecidableEq, Repr

/-- The sub-task dispatch of §4.E over one item's reference list: fail with
a cycle error when the referenced name is already on the stack, resolve it
through the catalogue, execute it, and stop at the first error. -/
def runSubTasksChecked (cat : Catalogue)
    (exec1 : TaskN → Except ExecErrN Unit) (stack : List String) :
    List String → Except ExecErrN Unit
  | [] => .ok ()
  | n :: rest =>
    if n ∈ stack then .error (.cycle n)
    else
      match lookupTask cat n with
      | none => .error (.unknownTask n)
      | some tk =>
        match exec1 tk with
        | .error e => .error e
        | .ok _ => runSubTasksChecked cat exec1 stack rest

/-- The run-item loop of §4.F over the model's run items. -/
def runListChecked (cat : Catalogue) (exec1 : TaskN → Except ExecErrN Unit)
    (stack : List String) : List RunN → Except ExecErrN Unit
  | [] => .ok ()
  | r :: rest =>
    match runSubTasksChecked cat exec1 stack r.tasks with
    | .error e => .error e
    | .ok _ => runListChecked cat exec1 stack rest

/-- Executing one task: push its name onto the stack (as `Task.Execute` does
through `WithTask`) and process its run items; the fuel decreases at each
nested task execution. -/
def executeN (cat : Catalogue) : Nat → List String → TaskN →
    Except ExecErrN Unit
  | 0, _, _ => .error .outOfFuel
  | fuel + 1, stack, t =>
    runListChecked cat (executeN cat fuel (stack ++ [t.name]))
      (stack ++ [t.name]) t.runList

/-- All sub-task names a task references directly. -/
def subRefs (t : TaskN) : List String :=
  (t.runList.map RunN.tasks).flatten

/-- One reference step: the catalogue entry for `a` references `b`. -/
def refStep (cat : Catalogue) (a b : String) : Prop :=
  ∃ tk, lookupTask cat a = some tk ∧ b ∈ subRefs tk

theorem mem_subRefs {t : TaskN} {b : String} :
    b ∈ subRefs t ↔ ∃ r ∈ t.runList, b ∈ r.tasks := by
  simp [subRefs, List.mem_flatten]

theorem runSubTasksChecked_ok {cat : Catalogue}
    {exec1 : TaskN → Except ExecErrN Unit} {stack : List String} :
    ∀ {ns : List String}, runSubTasksChecked cat exec1 stack ns = .ok () →
      ∀ n ∈ ns, n ∉ stack ∧
        ∃ tk, lookupTask cat n = some tk ∧ exec1 tk = .ok () := by
  intro ns
  induction ns with
  | nil => intro _ n hn; simp at hn
  | cons m rest ih =>
    intro h n hn
    rw [runSubTasksChecked] at h
    by_cases hmem : m ∈ stack
    · simp [hmem] at h
    · rw [if_neg hmem] at h
      cases hlk : lookupTask cat m with
      | none => simp [hlk] at h
      | some tk =>
        simp only [hlk] at h
        cases hex : exec1 tk with
        | error e => simp [hex] at h
        | ok u =>
          cases u
          simp only [hex] at h
          rcases List.mem_cons.mp hn with hn | hn
          · exact hn ▸ ⟨hmem, tk, hlk, hex⟩
          · exact ih h n hn

theorem runListChecked_ok {cat : Catalogue}
    {exec1 : TaskN → Except ExecErrN Unit} {stack : List String} :
    ∀ {rs : List RunN}, runListChecked cat exec1 stack rs = .ok () →
      ∀ r ∈ rs, runSubTasksChecked cat exec1 stack r.tasks = .ok () := by
  intro rs
  induction rs with
  | nil => intro _ r hr; simp at hr
  | cons q rest ih =>
    intro h r hr
    rw [runListChecked] at h
    cases hq : runSubTasksChecked cat exec1 stack q.tasks with
    | error e => simp [hq] at h
    | ok u =>
      cases u
      simp only [hq] at h
      rcases List.mem_cons.mp hr with hr | hr
      · exact hr ▸ hq
      · exact ih h r hr

theorem runSubTasksChecked_error {cat : Catalogue}
    {exec1 : TaskN → Except ExecErrN Unit} {stack : List String} :
    ∀ {ns : List String} {e : ExecErrN},
      runSubTasksChecked cat exec1 stack ns = .error e →
      (∃ n ∈ ns, n ∈ stack ∧ e = .cycle n) ∨
      (∃ n ∈ ns, lookupTask cat n = none ∧ e = .unknownTask n) ∨
      (∃ n ∈ ns, n ∉ stack ∧
        ∃ tk, lookupTask cat n = some tk ∧ exec1 tk = .error e) := by
  intro ns
  induction ns with
  | nil => intro e h; simp [runSubTasksChecked] at h
  | cons m rest ih =>
    intro e h
    rw [runSubTasksChecked] at h
    by_cases hmem : m ∈ stack
    · rw [if_pos hmem] at h
      injection h with h2
      exact Or.inl ⟨m, List.mem_cons_self m rest, hmem, h2.symm⟩
    · rw [if_neg hmem] at h
      cases hlk : lookupTask cat m with
      | none =>
        simp only [hlk] at h
        injection h with h2
        exact Or.inr (Or.inl ⟨m, List.mem_cons_self m rest, hlk, h2.symm⟩)
      | some tk =>
        simp only [hlk] at h
        cases hex : exec1 tk with
        | error e2 =>
          simp only [hex] at h
          injection h with h2
          rw [← h2]
          exact Or.inr (Or.inr ⟨m, List.mem_cons_self m rest, hmem, tk, hlk,
            hex⟩)
        | ok u =>
          cases u
          simp only [hex] at h
          rcases ih h with ⟨n, hn, hc⟩ | ⟨n, hn, hc⟩ | ⟨n, hn, hc⟩
          · exact Or.inl ⟨n, List.mem_cons_of_mem m hn, hc⟩
          · exact Or.inr (Or.inl ⟨n, List.mem_cons_of_mem m hn, hc⟩)
          · exact Or.inr (Or.inr ⟨n, List.mem_cons_of_mem m hn, hc⟩)

theorem runListChecked_error {cat : Catalogue}
    {exec1 : TaskN → Except ExecErrN Unit} {stack : List String} :
    ∀ {rs : List RunN} {e : ExecErrN},
      runListChecked cat exec1 stack rs = .error e →
      ∃ r ∈ rs, runSubTasksChecked cat exec1 stack r.tasks = .error e := by
  intro rs
  induction rs with
  | nil => intro e h; simp [runListChecked] at h
  | cons q rest ih =>
    intro e h
    rw [runListChecked] at h
    cases hq : runSubTasksChecked cat exec1 stack q.tasks with
    | error e2 =>
      simp only [hq] at h
      injection h with h2
      exact ⟨q, List.mem_cons_self q rest, h2 ▸ hq⟩
    | ok u =>
      cases u
      simp only [hq] at h
      obtain ⟨r, hr, hres⟩ := ih h
      exact ⟨r, List.mem_cons_of_mem q hr, hres⟩

theorem executeN_ok_step {cat : Catalogue} {fuel : Nat}
    {stack : List String} {t : TaskN} {b : String}
    (hok : executeN cat fuel stack t = .ok ()) (hb : b ∈ subRefs t) :
    b ∉ stack ++ [t.name] ∧
      ∃ tb, lookupTask cat b = some tb ∧
        executeN cat (fuel - 1) (stack ++ [t.name]) tb = .ok () := by
  cases fuel with
  | zero => rw [executeN] at hok; cases hok
  | succ fuel =>
    rw [executeN] at hok
    obtain ⟨r, hr, hbr⟩ := mem_subRefs.mp hb
    have h1 := runListChecked_ok hok r hr
    have h2 := runSubTasksChecked_ok h1 b hbr
    simpa using h2

/-- A task whose catalogue entry transitively references itself can never
execute successfully: were the whole execution `ok`, every execution along
the reference path back to the task would be `ok`, yet each of them carries
the task's name on its stack, and the final re-invocation of the task would
have had to pass the cycle check against a stack containing its name. -/
theorem executeN_ne_ok_of_cycle {cat : Catalogue} {t : TaskN} {fuel : Nat}
    {stack : List String} (hroot : lookupTask cat t.name = some t)
    (hcyc : Relation.TransGen (refStep cat) t.name t.name) :
    executeN cat fuel stack t ≠ .ok () := by
  intro hok
  have key : ∀ b, Relation.TransGen (refStep cat) t.name b →
      ∃ fuel2 stack2 tb, t.name ∈ stack2 ∧ b ∉ stack2 ∧
        lookupTask cat b = some tb ∧
        executeN cat fuel2 stack2 tb = .ok () := by
    intro b hb
    induction hb with
    | single h =>
      obtain ⟨tk, hlk, hmem⟩ := h
      rw [hroot] at hlk
      cases hlk
      obtain ⟨hnot, tb, hlkb, hokb⟩ := executeN_ok_step hok hmem
      exact ⟨fuel - 1, stack ++ [t.name], tb,
        List.mem_append_right stack (List.mem_singleton.mpr rfl), hnot, hlkb,
        hokb⟩
    | tail hab hbc ih =>
      obtain ⟨fuel2, stack2, tb, hain, hbnotin, hlkb, hokb⟩ := ih
      obtain ⟨tk, hlkb2, hmem⟩ := hbc
      rw [hlkb] at hlkb2
      cases hlkb2
      obtain ⟨hcnot, tc, hlkc, hokc⟩ := executeN_ok_step hokb hmem
      exact ⟨fuel2 - 1, stack2 ++ [tb.name], tc,
        List.mem_append_left _ hain, hcnot, hlkc, hokc⟩
  obtain ⟨fuel2, stack2, tb, hain, hnotin, -, -⟩ := key t.name hcyc
  exact hnotin hain

theorem nodup_snoc {α : Type} {l : List α} {a : α} (h1 : l.Nodup)
    (h2 : a ∉ l) : (l ++ [a]).Nodup := by
  rw [List.nodup_append]
  refine ⟨h1, List.nodup_singleton a, ?_⟩
  intro x hx hx1
  rw [List.mem_singleton.mp hx1] at hx
  exact h2 hx

theorem lookup_mem_keys {cat : Catalogue} {n : String} {tk : TaskN}
    (h : lookupTask cat n = some tk) : n ∈ cat.map Prod.fst := by
  induction cat with
  | nil => cases h
  | cons p rest ih =>
    rw [lookupTask] at h
    by_cases hp : p.1 = n
    · simp [hp]
    · rw [if_neg hp] at h
      simp [ih h]

theorem nodup_length_le {l keys : List String} (hnd : l.Nodup)
    (hsub : ∀ x ∈ l, x ∈ keys) : l.length ≤ keys.length := by
  calc l.length = l.toFinset.card := (List.toFinset_card_of_nodup hnd).symm
    _ ≤ keys.toFinset.card := Finset.card_le_card (by
        intro x hx
        exact List.mem_toFinset.mpr (hsub x (List.mem_toFinset.mp hx)))
    _ ≤ keys.length := keys.toFinset_card_le

/-- Execution of a catalogue task never references an unknown catalogue
name when every reference of every catalogue entry has an entry. -/
theorem executeN_ne_unknown {cat : Catalogue}
    (hclosed : ∀ n tk, lookupTask cat n = some tk →
      ∀ b ∈ subRefs tk, ∃ tb, lookupTask cat b = some tb) :
    ∀ (fuel : Nat) (stack : List String) (t : TaskN),
      (∃ n0, lookupTask cat n0 = some t) →
      ∀ m, executeN cat fuel stack t ≠ .error (.unknownTask m) := by
  intro fuel
  induction fuel with
  | zero => intro stack t _ m h; rw [executeN] at h; cases h
  | succ fuel ih =>
    intro stack t hin m h
    rw [executeN] at h
    obtain ⟨r, hr, hres⟩ := runListChecked_error h
    rcases runSubTasksChecked_error hres with ⟨n, hn, -, hc⟩ |
      ⟨n, hn, hnone, hc⟩ | ⟨n, hn, -, tk, hlk, hex⟩
    · cases hc
    · obtain ⟨n0, hn0⟩ := hin
      obtain ⟨tb, htb⟩ := hclosed n0 t hn0 n
        (mem_subRefs.mpr ⟨r, hr, hn⟩)
      rw [htb] at hnone
      cases hnone
    · exact ih (stack ++ [t.name]) tk ⟨n, hlk⟩ m hex

/-- With fuel exceeding the number of catalogue entries not yet on the
stack, execution cannot exhaust its fuel: the stack grows by one distinct
catalogue name per nesting level, so the nesting depth is bounded by the
catalogue size. -/
theorem executeN_ne_outOfFuel {cat : Catalogue}
    (hcons : ∀ n tk, lookupTask cat n = some tk → tk.name = n) :
    ∀ (fuel : Nat) (stack : List String) (t : TaskN),
      (stack ++ [t.name]).Nodup →
      (∀ x ∈ stack ++ [t.name], ∃ tk, lookupTask cat x = some tk) →
      cat.length + 1 ≤ fuel + stack.length →
      executeN cat fuel stack t ≠ .error .outOfFuel := by
  intro fuel
  induction fuel with
  | zero =>
    intro stack t hnd hentries hbound h
    have hsub : ∀ x ∈ stack ++ [t.name], x ∈ cat.map Prod.fst := by
      intro x hx
      obtain ⟨tk, htk⟩ := hentries x hx
      exact lookup_mem_keys htk
    have hle := nodup_length_le hnd hsub
    simp at hle
    omega
  | succ fuel ih =>
    intro stack t hnd hentries hbound h
    rw [executeN] at h
    obtain ⟨r, hr, hres⟩ := runListChecked_error h
    rcases runSubTasksChecked_error hres with ⟨n, hn, -, hc⟩ |
      ⟨n, hn, -, hc⟩ | ⟨n, hn, hnot, tk, hlk, hex⟩
    · cases hc
    · cases hc
    · have hname := hcons n tk hlk
      refine ih (stack ++ [t.name]) tk ?_ ?_ ?_ hex
      · rw [hname]
        exact nodup_snoc hnd hnot
      · intro x hx
        rcases List.mem_append.mp hx with hx | hx
        · exact hentries x hx
        · rw [hname] at hx
          rw [List.mem_singleton.mp hx]
          exact ⟨tk, hlk⟩
      · simp
        omega

/-- C2: a task whose definition transitively references itself through its
sub-task run items fails with a cycle error in bounded time: with fuel one
more than the catalogue size (so fuel is never the cause of failure), on a
closed, consistently keyed catalogue, the execution returns a cycle error —
raised exactly when a referenced name is found on the context's task stack
at the moment the sub-task is invoked. -/
theorem selfReference_fails_with_cycle (cat : Catalogue) (t : TaskN)
    (hcons : ∀ n tk, lookupTask cat n = some tk → tk.name = n)
    (hclosed : ∀ n tk, lookupTask cat n = some tk →
      ∀ b ∈ subRefs tk, ∃ tb, lookupTask cat b = some tb)
    (hroot : lookupTask cat t.name = some t)
    (hcyc : Relation.TransGen (refStep cat) t.name t.name) :
    ∃ n, executeN cat (cat.length + 1) [] t = .error (.cycle n) := by
  cases hres : executeN cat (cat.length + 1) [] t with
  | ok u =>
    cases u
    exact absurd hres (executeN_ne_ok_of_cycle hroot hcyc)
  | error e =>
    cases e with
    | outOfFuel =>
      refine absurd hres (executeN_ne_outOfFuel hcons (cat.length + 1) [] t
        ?_ ?_ ?_)
      · simp
      · intro x hx
        simp at hx
        rw [hx]
        exact ⟨t, hroot⟩
      · simp
    | cycle n => exact ⟨n, rfl⟩
    | unknownTask m =>
      exact absurd hres
        (executeN_ne_unknown hclosed (cat.length + 1) [] t ⟨t.name, hroot⟩ m)

/-! ## Concrete instances of the embedded engine, used by the witnesses -/

/-- A world in which every collaborator succeeds: cache path computed, task
not up to date, cache writes succeed, guards pass, commands and environment
calls succeed. -/
def wGo : World where
  taskInputCachePath := fun _ _ => .ok "cachefile"
  isUpToDate := fun _ _ _ => .ok false
  cacheWrite := fun _ _ _ => none
  shouldRun := fun _ _ _ => (true, none)
  execRes := fun _ _ => none
  setenvRes := fun _ _ => none
  unsetenvRes := fun _ => none

/-- The same world with the cache reporting up to date. -/
def wUp : World :=
  { wGo with isUpToDate := fun _ _ _ => .ok true }

/-- The same world with `os.Setenv` failing. -/
def wEnvFail : World :=
  { wGo with setenvRes := fun _ _ => some "setenv failed" }

/-- An initial context with an empty task stack. -/
def ctx0 : Ctx := ⟨"tusk.yml", ["sh", "-c"], []⟩

/-- A task with source and target globs and nothing to run. -/
def tBuild : Task := .mk "build" false false [] [] [] [] ["src"] ["out"] []

/-- A run item that does nothing and cannot fail. -/
def rOk : Run := .mk [] [] []

/-- A run item whose single environment mutation is the first thing that can
fail under `wEnvFail`. -/
def rBad : Run := .mk [] [] [("KEY", some "value")]

/-- A run item with one command. -/
def rEcho : Run := .mk [⟨"echo hi", "echo hi", false⟩] [] []

/-- A task whose finally list is a succeeding item, a failing item, and a
trailing item. -/
def tFin : Task := .mk "tf" false false [] [] [] [rOk, rBad, rOk] [] [] []

/-- A task with one command run item. -/
def tEcho : Task := .mk "t0" false false [] [] [rEcho] [] [] [] []

/-- A task with a non-empty source list and an empty target list. -/
def tBadSrc : Task := .mk "bad" false false [] [] [] [] ["src"] [] []

/-- Witness for C1 at a concrete up-to-date task. -/
theorem cacheSkip_executes_nothing_witness :
    Task.execute wUp ctx0 tBuild =
      ([.taskSkipped tBuild.name "all targets up to date"], none) ∧
    (Task.execute wUp ctx0 tBuild).1.filter Event.isSpawn = [] ∧
    (Task.execute wUp ctx0 tBuild).1.filter Event.isEnvMutation = [] ∧
    (Task.execute wUp ctx0 tBuild).1.filter Event.isFinallyHeader = [] :=
  cacheSkip_executes_nothing wUp ctx0 tBuild "cachefile" (by decide)
    (by decide) rfl rfl

/-- Witness for C4 at a concrete passing guard. -/
theorem runItem_dispatch_order_witness :
    Task.run wGo ctx0 tEcho rEcho .stateRunning =
      resSeq (Task.runCommands wGo ctx0 tEcho rEcho .stateRunning)
        (resSeq (Task.runSubTasks wGo ctx0 tEcho rEcho)
          (runEnvironment wGo ctx0 rEcho)) :=
  (runItem_dispatch_order wGo ctx0 tEcho rEcho .stateRunning rfl).1

/-- Witness for the amended C5 at the concrete two-file include chain. -/
theorem include_follows_nested_include_witness :
    decodeTaskNode fsChain (0 + 2) (.includeNode "f1" 0) = .ok tInline :=
  include_follows_nested_include fsChain "f1" "f2" tInline 0 rfl rfl rfl

/-- Witness for C6 at a concrete task with source set and target empty. -/
theorem sourceTarget_validation_witness :
    Task.isValid tBadSrc =
      .error "task source cannot be defined without target" :=
  (sourceTarget_validation tBadSrc).1 (by decide) rfl

/-- Witness for C8 at a one-argument invocation of a zero-argument task. -/
theorem argCount_exact_match_witness :
    createExecuteAction wGo tBuild ["x"] =
      ([], some ("task \"" ++ tBuild.name ++ "\" requires exactly "
        ++ toString tBuild.args.length ++ " args, got "
        ++ toString ["x"].length)) :=
  (argCount_exact_match wGo tBuild ["x"]).1 (by decide)

/-- Witness for C9 at a concrete one-array store. -/
theorem withTask_no_alias_witness :
    sliceView (withTaskSlice (⟨[[tBuild]]⟩ : Store Task) ⟨0, 0, 1, 1⟩ tFin).1
        (withTaskSlice (⟨[[tBuild]]⟩ : Store Task) ⟨0, 0, 1, 1⟩ tFin).2 =
      sliceView (⟨[[tBuild]]⟩ : Store Task) ⟨0, 0, 1, 1⟩ ++ [tFin] ∧
    sliceView (withTaskSlice (⟨[[tBuild]]⟩ : Store Task) ⟨0, 0, 1, 1⟩ tFin).1
        ⟨0, 0, 1, 1⟩ =
      sliceView (⟨[[tBuild]]⟩ : Store Task) ⟨0, 0, 1, 1⟩ ∧
    (withTaskSlice (⟨[[tBuild]]⟩ : Store Task) ⟨0, 0, 1, 1⟩ tFin).2.arrId ≠
      (⟨0, 0, 1, 1⟩ : GoSlice).arrId ∧
    sliceView
      (sliceAppendMany
        (withTaskSlice (⟨[[tBuild]]⟩ : Store Task) ⟨0, 0, 1, 1⟩ tFin).1
        (withTaskSlice (⟨[[tBuild]]⟩ : Store Task) ⟨0, 0, 1, 1⟩ tFin).2
        [tEcho]).1 ⟨0, 0, 1, 1⟩ =
      sliceView (⟨[[tBuild]]⟩ : Store Task) ⟨0, 0, 1, 1⟩ :=
  withTask_no_alias (⟨[[tBuild]]⟩ : Store Task) ⟨0, 0, 1, 1⟩ tFin [tEcho]
    (by refine ⟨?_, ?_, ?_⟩ <;> decide)

/-- Witness for C10 at a concrete finally list whose middle item fails. -/
theorem finally_stops_after_first_error_witness :
    (Task.runFinally wEnvFail ctx0 tFin (some "run failed")).1 =
      .taskFinallyStarted tFin.name ::
        (([rOk].map fun x =>
            (Task.run wEnvFail ctx0 tFin x .stateFinally).1).flatten
          ++ (Task.run wEnvFail ctx0 tFin rBad .stateFinally).1) :=
  finally_stops_after_first_error wEnvFail ctx0 tFin (some "run failed")
    [rOk] [rOk] rBad "setenv failed" rfl
    (by
      intro x hx
      rw [List.mem_singleton.mp hx]
      simp [Task.run, wEnvFail, wGo, Task.vars, tFin, rOk, seqAll, resSeq,
        Task.runCommands, runCommandsList, Run.cmds, Task.runSubTasks,
        runTasksList, Run.tasks, runEnvironment, runEnvList,
        Run.setEnvironment])
    (by
      simp [Task.run, wEnvFail, wGo, Task.vars, tFin, rBad, seqAll, resSeq,
        Task.runCommands, runCommandsList, Run.cmds, Task.runSubTasks,
        runTasksList, Run.tasks, runEnvironment, runEnvList,
        Run.setEnvironment])

/-- The self-referencing task of the C2 witness. -/
def taskSelf : TaskN := ⟨"loop", [⟨["loop"]⟩]⟩

/-- A one-task catalogue in which "loop" references itself. -/
def catSelf : Catalogue := [("loop", taskSelf)]

/-- Witness for C2 at the concrete self-referencing catalogue. -/
theorem selfReference_fails_with_cycle_witness :
    ∃ n, executeN catSelf (catSelf.length + 1) [] taskSelf =
      .error (.cycle n) :=
  selfReference_fails_with_cycle catSelf taskSelf
    (by
      intro n tk h
      by_cases hn : "loop" = n
      · subst hn
        simp [lookupTask, catSelf] at h
        rw [← h]
        rfl
      · simp [lookupTask, catSelf, hn] at h)
    (by
      intro n tk h b hb
      by_cases hn : "loop" = n
      · subst hn
        simp [lookupTask, catSelf] at h
        rw [← h] at hb
        simp [subRefs, taskSelf] at hb
        subst hb
        exact ⟨taskSelf, rfl⟩
      · simp [lookupTask, catSelf, hn] at h)
    rfl
    (Relation.TransGen.single ⟨taskSelf, rfl, by decide⟩)

end Tusk
